import Mathlib

/-!
Verification of the dynadojo complexity-measure toolkit
(`src/dynadojo/utils/complexity_measures.py`).

Shallow embedding conventions:
* Floating-point data is embedded as exact arithmetic: `ℚ` for functions that
  use only field operations and comparisons (`find_max_lyapunov`,
  `kaplan_yorke_dimension`, `pca`), `ℝ` for functions that need `log` / `sqrt`
  (`estimate_powerlaw`, `gp_dim`, `find_lyapunov_exponents`).
* Fallible code (Python exceptions, numpy errors on empty reductions, and a
  division whose float result is non-finite) is embedded with `Option` /
  `Except`; `none` marks a call that does not produce a finite value.
* External collaborators (`neurokit2.entropy_multiscale`, `dysts.jac_fd`,
  `dysts.standardize_ts`, `np.linalg.qr`, `sklearn.decomposition.PCA`) are not
  part of this repository; they enter as explicit function parameters, exactly
  at the call sites where the Python code invokes them.
-/

/-- Python/numpy indexing `l[i]` for `i : ℤ`: a negative index wraps once from
the end; an index out of range on either side raises (modelled as `none`). -/
def pyGet (l : List ℚ) (i : ℤ) : Option ℚ :=
  if 0 ≤ i then l.get? i.toNat
  else if (-i).toNat ≤ l.length then l.get? (l.length - (-i).toNat)
  else none

/-- Ascending sort of rational data, as `np.sort` on a 1-D array. -/
def sortAscQ (l : List ℚ) : List ℚ := List.insertionSort (· ≤ ·) l

/-- Embedding of `np.sort(x)[::-1]`: ascending sort followed by reversal. -/
def sortDescQ (l : List ℚ) : List ℚ := (sortAscQ l).reverse

/-- Embedding of `np.cumsum`: entry `i` is the sum of the first `i + 1`
entries of the input. -/
def cumsumQ (l : List ℚ) : List ℚ :=
  (List.range l.length).map fun i => (l.take (i + 1)).sum

/-- Embedding of `find_max_lyapunov` (complexity_measures.py lines 245-250).

The Python scan sets `max_magnitude_number = spectrum0[0]` and never updates
it; `max_exp` is assigned only when `abs(exp) > abs(max_magnitude_number)`,
so the loop state is an `Option`: `none` is the unassigned `max_exp`, and a
`none` result is the `UnboundLocalError` raised by `return max_exp`.  On the
empty list `spectrum0[0]` itself raises (`none`). -/
def find_max_lyapunov (spectrum0 : List ℚ) : Option ℚ :=
  match spectrum0 with
  | [] => none
  | m :: rest => rest.foldl (fun acc e => if |m| < |e| then some e else acc) none

/-- Embedding of `kaplan_yorke_dimension` (complexity_measures.py lines
253-267).  The result pairs the returned value with a flag recording whether
`warnings.warn` fired.  `np.max(np.where(cspec >= 0))` raises a `ValueError`
when no cumulative sum is nonnegative (`none`).  The clamped index `j = d - 2`
is an `ℤ` because for `d = 1` it is `-1`, which Python then uses to index
`cspec` and `spectrum` from the end (`pyGet`). -/
def kaplan_yorke_dimension (spectrum0 : List ℚ) : Option (ℚ × Bool) :=
  let spectrum := sortDescQ spectrum0
  let d := spectrum.length
  let cspec := cumsumQ spectrum
  match ((List.range d).filter fun i => decide ((0 : ℚ) ≤ cspec.getD i 0)).max? with
  | none => none
  | some j0 =>
    let warned := decide ((d : ℤ) - 2 < (j0 : ℤ))
    let j : ℤ := if (d : ℤ) - 2 < (j0 : ℤ) then (d : ℤ) - 2 else (j0 : ℤ)
    match pyGet cspec j, pyGet spectrum (j + 1) with
    | some cj, some sj1 => some (1 + (j : ℚ) + cj / |sj1|, warned)
    | _, _ => none

/-- Embedding of `np.argmax` on a boolean array: index of the first `true`,
and `0` when every entry is `false` (numpy returns the first maximal entry). -/
def npArgmaxBool (l : List Bool) : ℕ := (l.findIdx? fun b => b).getD 0

/-- Embedding of `pca` (complexity_measures.py lines 147-158).  The
`PCA().fit(data)` call is external (sklearn); the fitted model enters through
its only consumed output, the explained-variance-ratio sequence `evr`.  The
function computes the cumulative sums and returns
`np.argmax(cumulative >= threshold) + 1`. -/
def pca (evr : List ℚ) (threshold : ℚ) : ℕ :=
  npArgmaxBool ((cumsumQ evr).map fun c => decide (threshold ≤ c)) + 1

/-- Ascending sort of real data (`np.sort`); classical comparison on `ℝ`. -/
noncomputable def sortAscR (l : List ℝ) : List ℝ := List.insertionSort (· ≤ ·) l

/-- Embedding of `np.sort(x)[::-1]` on real data. -/
noncomputable def sortDescR (l : List ℝ) : List ℝ := (sortAscR l).reverse

/-- Embedding of `np.median`: middle entry of the sorted data for odd length,
mean of the two middle entries for even length (junk value `0` on the empty
list, where numpy produces `nan` with a warning). -/
noncomputable def medianR (l : List ℝ) : ℝ :=
  let s := sortAscR l
  let n := s.length
  if n % 2 = 1 then s.getD (n / 2) 0
  else (s.getD (n / 2 - 1) 0 + s.getD (n / 2) 0) / 2

/-- Failure modes of `mse_mv`: the explicit `raise` when neurokit2 is absent,
and the `TypeError` from calling `entropy_multiscale` without its mandatory
signal argument. -/
inductive MseError where
  | configError : MseError
  | typeError : MseError
deriving DecidableEq

/-- Embedding of `mse_mv` (complexity_measures.py lines 113-144).

`has_neurokit` is the module-level flag set once at import time.
`entropy_multiscale` is the external neurokit2 estimator applied to one
signal (with `dimension=2`, composite fuzzy options), and `standardize_ts`
is the external dysts normalization; both are parameters because neither is
code of this repository.  A trajectory is either a 1-D array (`Sum.inl`) or a
2-D `T x D` array (`Sum.inr`).

In the 1-D branch the source calls
`neurokit2.entropy_multiscale(dimension=2, **mmse_opts)[0]` without passing
the trajectory, so Python raises a `TypeError` before any entropy is
computed: the branch is `Except.error .typeError`. -/
noncomputable def mse_mv (has_neurokit : Bool) (entropy_multiscale : List ℝ → ℝ)
    (standardize_ts : List (List ℝ) → List (List ℝ))
    (traj : List ℝ ⊕ List (List ℝ)) : Except MseError ℝ :=
  if has_neurokit = false then .error .configError
  else
    match traj with
    | .inl _ => .error .typeError
    | .inr m =>
      let t := standardize_ts m
      let all_mse := t.transpose.map entropy_multiscale
      .ok (medianR all_mse)


/-- Embedding of `estimate_powerlaw` (complexity_measures.py lines 15-30):
sort the data, take the minimum as `xmin`, and return
`1 + n / sum(log(data / xmin))`.  `none` captures the two non-finite
outcomes: `np.min` raises on an empty array, and a zero log-sum makes
`n / 0` a non-finite float (`inf`). -/
noncomputable def estimate_powerlaw (data0 : List ℝ) : Option ℝ :=
  let data := sortAscR data0
  match data.min? with
  | none => none
  | some xmin =>
    let n : ℕ := data.length
    let s : ℝ := (data.map fun x => Real.log (x / xmin)).sum
    if s = 0 then none else some (1 + n / s)

/-- Embedding of `np.percentile(a, q)` with the default linear
interpolation: on the ascending-sorted data `s` of length `n`, the sample
position is `h = (n - 1) * q / 100` and the result interpolates between
`s[floor h]` and `s[ceil h]`.  numpy raises on empty input (`none`). -/
noncomputable def percentile (l : List ℝ) (q : ℝ) : Option ℝ :=
  match l with
  | [] => none
  | _ :: _ =>
    let s := sortAscR l
    let pos : ℝ := ((l.length : ℝ) - 1) * (q / 100)
    let lo := s.getD (⌊pos⌋).toNat 0
    let hi := s.getD (⌈pos⌉).toNat 0
    some (lo + (pos - (⌊pos⌋ : ℝ)) * (hi - lo))

/-- Euclidean distance between two points, the default metric of
`scipy.spatial.distance.cdist`. -/
noncomputable def euclDist (a b : List ℝ) : ℝ :=
  Real.sqrt ((List.zipWith (fun x y => (x - y) ^ 2) a b).sum)

/-- Row-major flattening `cdist(data, y_data).ravel()` of the full pairwise
distance matrix. -/
noncomputable def cdistFlat (data y_data : List (List ℝ)) : List ℝ :=
  (data.map fun a => y_data.map fun b => euclDist a b).flatten

/-- Embedding of `gp_dim` (complexity_measures.py lines 33-86), active code
path only.  `y_data = none` is the self-correlation default (`y_data =
data.copy()`).  The legacy `rvals` / `nmax` parameters are dead in the active
path (`rvals` is unconditionally overwritten by the flattened distances, and
the `rvals is None` branch only computes values that are discarded), so they
are omitted.  The filters are sequential reassignments of `rvals`: positives,
then values above the 5th percentile of the positives, then values below the
50th percentile of THAT already-filtered band; `np.percentile` raises on an
empty array (`none`). -/
noncomputable def gp_dim (data : List (List ℝ)) (y_data : Option (List (List ℝ))) :
    Option ℝ :=
  let y := y_data.getD data
  let rvals1 := (cdistFlat data y).filter fun x => decide (0 < x)
  match percentile rvals1 5 with
  | none => none
  | some p5 =>
    let rvals2 := rvals1.filter fun x => decide (p5 < x)
    match percentile rvals2 50 with
    | none => none
    | some p50 => estimate_powerlaw (rvals2.filter fun x => decide (x < p50))

/-- The distance sample described by claim C2's words: positive pairwise
distances strictly between the 5th and 50th percentiles OF THE POSITIVE
DISTANCES (both percentiles computed on the same positive sample). -/
noncomputable def claimDistanceSample (data y_data : List (List ℝ)) :
    Option (List ℝ) :=
  let pos := (cdistFlat data y_data).filter fun x => decide (0 < x)
  match percentile pos 5, percentile pos 50 with
  | some p5, some p50 => some (pos.filter fun x => decide (p5 < x ∧ x < p50))
  | _, _ => none

/-- The distance sample `gp_dim` actually feeds to the power-law fit
(amended spec): positive distances above their 5th percentile and, of that
already-filtered band, the values strictly below the band's own 50th
percentile. -/
noncomputable def distanceSample (data y_data : List (List ℝ)) :
    Option (List ℝ) :=
  let pos := (cdistFlat data y_data).filter fun x => decide (0 < x)
  match percentile pos 5 with
  | none => none
  | some p5 =>
    let band := pos.filter fun x => decide (p5 < x)
    match percentile band 50 with
    | none => none
    | some p50 => some (band.filter fun x => decide (x < p50))


/-- Embedding of `np.diff`: consecutive differences `l[i+1] - l[i]`. -/
noncomputable def np_diff (l : List ℝ) : List ℝ :=
  List.zipWith (fun a b => a - b) l.tail l

/-- Embedding of `np.min(np.abs(v))` on a length-`d` vector (junk `0` for
`d = 0`, where numpy raises). -/
noncomputable def minAbsV {d : ℕ} (v : Fin d → ℝ) : ℝ :=
  ((List.ofFn fun j => |v j|).min?).getD 0

/-- The model object consumed by `find_lyapunov_exponents` (spec section 6
collaborator contract): an initial condition fixing the dimension `d`, a
right-hand side, an optional analytic Jacobian (`model.jac(ic, 0) is None`
marks its absence) and an optional `_postprocessing` coordinate transform
(the `hasattr` check). -/
structure LyapModel (d : ℕ) where
  ic : Fin d → ℝ
  rhs : (Fin d → ℝ) → ℝ → (Fin d → ℝ)
  jac : Option ((Fin d → ℝ) → ℝ → Matrix (Fin d) (Fin d) ℝ)
  postprocessing : Option ((Fin d → ℝ) → (Fin d → ℝ))

/-- The external numerical routines `find_lyapunov_exponents` calls:
`dysts.utils.jac_fd` (finite-difference Jacobian of a map at a point) and
`np.linalg.qr` (returning the orthonormal factor and the upper-triangular
factor).  Neither is code of this repository. -/
structure LyapOracles (d : ℕ) where
  jacFD : ((Fin d → ℝ) → (Fin d → ℝ)) → (Fin d → ℝ) → Matrix (Fin d) (Fin d) ℝ
  qr : Matrix (Fin d) (Fin d) ℝ → Matrix (Fin d) (Fin d) ℝ × Matrix (Fin d) (Fin d) ℝ

/-- The per-step Jacobian of the loop body (complexity_measures.py lines
206-221): the analytic Jacobian at `(X, t)` when the model has one, else the
finite-difference Jacobian of `rhs(., t)` at `X`; then, when a
post-processing transform exists, the conjugation
`dhdy @ jacval @ inv(dhdy)` with `dhdy = jac_fd(postprocessing, X)`. -/
noncomputable def lyapJacAt {d : ℕ} (M : LyapModel d) (O : LyapOracles d)
    (t : ℝ) (X : Fin d → ℝ) : Matrix (Fin d) (Fin d) ℝ :=
  let jacval := match M.jac with
    | none => O.jacFD (fun x => M.rhs x t) X
    | some J => J X t
  match M.postprocessing with
  | none => jacval
  | some pp =>
    let dhdy := O.jacFD pp X
    dhdy * jacval * dhdy⁻¹

/-- The mutable state of the integration loop: the tangent frame `u`, the
list of recorded per-step exponent contributions `all_lyap`, and the
`traj_length` variable that early stopping overwrites. -/
structure LyapState (d : ℕ) where
  u : Matrix (Fin d) (Fin d) ℝ
  all_lyap : List (Fin d → ℝ)
  traj_length : ℕ

open Classical in
/-- One iteration of the loop of `find_lyapunov_exponents` (lines 203-238)
at index `i` on the sampled point `(t, X)`.  Index 0 is skipped (`continue`;
the Jacobian computed before the `continue` has no effect and is omitted).
Otherwise: backward-Euler tangent update `u_n = inv(I - jacval*dt) @ u`, QR
re-orthonormalization, `lyap_estimate = log|diag r|` appended to the record,
`u := q`, and — when the smallest estimate magnitude is below `tol` past
`min_tpts` — the `traj_length` variable is overwritten with `i` (the loop
does not break). -/
noncomputable def lyapStep {d : ℕ} (M : LyapModel d) (O : LyapOracles d)
    (dt tol : ℝ) (min_tpts : ℕ) (i : ℕ) (t : ℝ) (X : Fin d → ℝ)
    (st : LyapState d) : LyapState d :=
  if i < 1 then st
  else
    let jacval := lyapJacAt M O t X
    let u_n := (1 - dt • jacval)⁻¹ * st.u
    let q := (O.qr u_n).1
    let r := (O.qr u_n).2
    let lyap_estimate : Fin d → ℝ := fun j => Real.log |r j j|
    { u := q
      all_lyap := st.all_lyap ++ [lyap_estimate]
      traj_length := if minAbsV lyap_estimate < tol ∧ min_tpts < i then i
                     else st.traj_length }

/-- The loop `for i, (t, X) in enumerate(zip(tpts, traj))`. -/
noncomputable def lyapLoop {d : ℕ} (M : LyapModel d) (O : LyapOracles d)
    (dt tol : ℝ) (min_tpts : ℕ) :
    ℕ → List (ℝ × (Fin d → ℝ)) → LyapState d → LyapState d
  | _, [], st => st
  | i, p :: rest, st =>
      lyapLoop M O dt tol min_tpts (i + 1) rest (lyapStep M O dt tol min_tpts i p.1 p.2 st)

/-- Embedding of `find_lyapunov_exponents` (complexity_measures.py lines
161-242).  The externally generated trajectory enters as the sampled times
`tpts` and states `traj` (the `make_trajectory` output); `traj_length` is the
function argument that also serves as the fallback divisor.  After the loop:
`dt = median(diff(tpts))`, `final_lyap = sum(all_lyap, axis=0) /
(dt * traj_length)`, and the result is `np.sort(final_lyap)[::-1]`. -/
noncomputable def find_lyapunov_exponents {d : ℕ} (M : LyapModel d) (O : LyapOracles d)
    (traj_length : ℕ) (tpts : List ℝ) (traj : List (Fin d → ℝ))
    (tol : ℝ) (min_tpts : ℕ) : List ℝ :=
  let dt := medianR (np_diff tpts)
  let st := lyapLoop M O dt tol min_tpts 0 (tpts.zip traj) ⟨1, [], traj_length⟩
  sortDescR (List.ofFn fun j =>
    ((st.all_lyap.map fun v => v j).sum) / (dt * st.traj_length))

/-- Claim-side characterization: the orthonormal tangent frame entering step
`i + 1`: identity at the start, then the Q factor of the QR decomposition of
the backward-Euler update at each recorded step. -/
noncomputable def lyapFrame {d : ℕ} (M : LyapModel d) (O : LyapOracles d)
    (dt : ℝ) (tpts : List ℝ) (traj : List (Fin d → ℝ)) :
    ℕ → Matrix (Fin d) (Fin d) ℝ
  | 0 => 1
  | i + 1 =>
      (O.qr ((1 - dt • lyapJacAt M O (tpts.getD (i + 1) 0) (traj.getD (i + 1) fun _ => 0))⁻¹ *
        lyapFrame M O dt tpts traj i)).1

/-- Claim-side characterization: the per-step log absolute values of the
diagonal of the QR upper-triangular factor recorded at step `i ≥ 1`. -/
noncomputable def lyapContrib {d : ℕ} (M : LyapModel d) (O : LyapOracles d)
    (dt : ℝ) (tpts : List ℝ) (traj : List (Fin d → ℝ)) (i : ℕ) : Fin d → ℝ :=
  fun j => Real.log
    |(O.qr ((1 - dt • lyapJacAt M O (tpts.getD i 0) (traj.getD i fun _ => 0))⁻¹ *
      lyapFrame M O dt tpts traj (i - 1))).2 j j|

open Classical in
/-- Claim-side characterization of the final effective trajectory length:
the last recorded step index at which the early-stop condition fired, or the
`traj_length` argument when it never fired. -/
noncomputable def lyapEffLen {d : ℕ} (M : LyapModel d) (O : LyapOracles d)
    (dt tol : ℝ) (min_tpts : ℕ) (tpts : List ℝ) (traj : List (Fin d → ℝ))
    (N traj_length : ℕ) : ℕ :=
  (((List.range' 1 (N - 1)).filter fun i =>
      decide (minAbsV (lyapContrib M O dt tpts traj i) < tol ∧ min_tpts < i)).getLast?).getD
    traj_length

/-- A concrete 1-dimensional model (`dX/dt = X` with analytic Jacobian `1`),
used to instantiate the Lyapunov-spectrum theorem. -/
noncomputable def lyapModel0 : LyapModel 1 :=
  { ic := fun _ => 0
    rhs := fun x _ => x
    jac := some fun _ _ => 1
    postprocessing := none }

/-- Concrete numerical oracles for the 1-dimensional instance: trivial
finite differences and the trivial QR factorization `m = 1 * m`. -/
noncomputable def lyapOracles0 : LyapOracles 1 :=
  { jacFD := fun _ _ => 1
    qr := fun m => (1, m) }

/-! ### Helper lemmas -/

theorem sortDescQ_perm (l : List ℚ) : List.Perm (sortDescQ l) l :=
  (List.reverse_perm (sortAscQ l)).trans (List.perm_insertionSort _ l)

theorem sortDescQ_length (l : List ℚ) : (sortDescQ l).length = l.length :=
  (sortDescQ_perm l).length_eq

theorem sortDescQ_sum (l : List ℚ) : (sortDescQ l).sum = l.sum :=
  (sortDescQ_perm l).sum_eq

theorem cumsumQ_length (l : List ℚ) : (cumsumQ l).length = l.length := by
  simp [cumsumQ]

theorem cumsumQ_getD (l : List ℚ) (i : ℕ) (h : i < l.length) :
    (cumsumQ l).getD i 0 = (l.take (i + 1)).sum := by
  simp [cumsumQ, List.getElem?_range h]

theorem pyGet_natCast (l : List ℚ) (i : ℕ) (h : i < l.length) :
    pyGet l (i : ℤ) = some (l.getD i 0) := by
  simp [pyGet, Int.toNat_natCast, List.getElem?_eq_getElem h]

/-- The unseeded comparison scan of `find_max_lyapunov`: a left fold whose
accumulator keeps the last element satisfying the (fixed) comparison. -/
theorem foldl_lastAssign (m : ℚ) (l : List ℚ) (a0 : Option ℚ) :
    l.foldl (fun acc e => if |m| < |e| then some e else acc) a0
      = ((l.filter fun e => decide (|m| < |e|)).getLast?).or a0 := by
  induction l generalizing a0 with
  | nil => simp
  | cons x xs ih =>
    rw [List.foldl_cons, ih]
    by_cases hx : |m| < |x|
    · rw [if_pos hx, List.filter_cons_of_pos (by simpa using hx)]
      cases hfx : (xs.filter fun e => decide (|m| < |e|)) with
      | nil => simp
      | cons y ys =>
        rw [List.getLast?_cons_cons]
        cases hgl : (y :: ys).getLast? with
        | none => exact absurd (List.getLast?_eq_none_iff.mp hgl) (by simp)
        | some z => simp [Option.or]
    · rw [if_neg hx, List.filter_cons_of_neg (by simpa using hx)]

theorem find_max_lyapunov_eq_getLast? (m : ℚ) (rest : List ℚ) :
    find_max_lyapunov (m :: rest)
      = (rest.filter fun e => decide (|m| < |e|)).getLast? := by
  show rest.foldl _ none = _
  rw [foldl_lastAssign, Option.or_none]

/-- Characterization of `np.max(np.where(cspec >= 0))` over a length-`d`
cumulative-sum list: if entry `j` is nonnegative and every later entry is
negative, the maximal index with a nonnegative entry is `j`. -/
theorem ky_where_max (c : List ℚ) (d j : ℕ) (hj : j < d)
    (hge : 0 ≤ c.getD j 0) (hmax : ∀ k, j < k → k < d → c.getD k 0 < 0) :
    ((List.range d).filter fun i => decide ((0 : ℚ) ≤ c.getD i 0)).max? = some j := by
  rw [List.max?_eq_some_iff Nat.le_refl max_choice (fun a b c => max_le_iff)]
  constructor
  · rw [List.mem_filter, List.mem_range]
    exact ⟨hj, by simpa using hge⟩
  · intro b hb
    rw [List.mem_filter, List.mem_range] at hb
    by_contra hbj
    exact absurd (by simpa using hb.2) (not_le.mpr (hmax b (by omega) hb.1))

theorem getD_eq_getElem {l : List ℚ} {i : ℕ} (h : i < l.length) : l.getD i 0 = l[i] := by
  rw [List.getD_eq_getElem?_getD, List.getElem?_eq_getElem h, Option.getD_some]

/-- First index whose cumulative explained variance reaches the threshold:
`pca` returns it 1-indexed. -/
theorem pca_first_reach (evr : List ℚ) (threshold : ℚ) (k : ℕ)
    (hk : k < evr.length)
    (hge : threshold ≤ (cumsumQ evr).getD k 0)
    (hlt : ∀ m, m < k → (cumsumQ evr).getD m 0 < threshold) :
    pca evr threshold = k + 1 := by
  have hck : k < (cumsumQ evr).length := by rw [cumsumQ_length]; exact hk
  have hfind : ((cumsumQ evr).map fun c => decide (threshold ≤ c)).findIdx?
      (fun b => b) = some k := by
    rw [List.findIdx?_eq_some_iff_getElem]
    refine ⟨by simpa using hck, ?_, ?_⟩
    · rw [List.getElem_map]
      exact decide_eq_true (by rw [getD_eq_getElem hck] at hge; exact hge)
    · intro j hj
      rw [List.getElem_map]
      have hjc : j < (cumsumQ evr).length := by omega
      simp only [Bool.not_eq_true, decide_eq_false_iff_not]
      rw [← getD_eq_getElem hjc]
      exact not_le.mpr (hlt j hj)
  unfold pca npArgmaxBool
  rw [hfind]
  rfl


instance : Std.Antisymm ((· : ℝ) ≤ ·) := ⟨fun h1 h2 => le_antisymm h1 h2⟩

theorem sortAscR_eq_self {l : List ℝ} (h : l.Chain' (· ≤ ·)) : sortAscR l = l :=
  List.Sorted.insertionSort_eq (List.chain'_iff_pairwise.mp h)

theorem euclDist_single (v : ℝ) (hv : 0 ≤ v) : euclDist [0] [v] = v := by
  have h : (0 - v) ^ 2 = v ^ 2 := by ring
  simp [euclDist, h, Real.sqrt_sq hv]

theorem cdist_eval : cdistFlat [[0]] [[(1:ℝ)],[2],[3],[4],[5]] = [(1:ℝ),2,3,4,5] := by
  simp [cdistFlat, euclDist_single 1 (by norm_num), euclDist_single 2 (by norm_num),
    euclDist_single 3 (by norm_num), euclDist_single 4 (by norm_num),
    euclDist_single 5 (by norm_num)]

theorem percentile_5pt_5 : percentile [(1:ℝ),2,3,4,5] 5 = some (6/5) := by
  have hs : sortAscR [(1:ℝ),2,3,4,5] = [1,2,3,4,5] := sortAscR_eq_self (by norm_num)
  have hp : ((List.length [(1:ℝ),2,3,4,5] : ℝ) - 1) * ((5:ℝ)/100) = 1/5 := by
    norm_num
  have hf : ⌊(1/5 : ℝ)⌋ = 0 := by rw [Int.floor_eq_iff]; norm_num
  have hc : ⌈(1/5 : ℝ)⌉ = 1 := by rw [Int.ceil_eq_iff]; norm_num
  dsimp only [percentile]
  rw [hs, hp, hf, hc]
  norm_num [List.getD, show Int.toNat 2 = 2 from rfl, Int.toNat_ofNat,
    List.getElem_cons_succ, List.getElem_cons_zero]

theorem percentile_5pt_50 : percentile [(1:ℝ),2,3,4,5] 50 = some 3 := by
  have hs : sortAscR [(1:ℝ),2,3,4,5] = [1,2,3,4,5] := sortAscR_eq_self (by norm_num)
  have hp : ((List.length [(1:ℝ),2,3,4,5] : ℝ) - 1) * ((50:ℝ)/100) = 2 := by
    norm_num
  have hf : ⌊(2 : ℝ)⌋ = 2 := by rw [Int.floor_eq_iff]; norm_num
  have hc : ⌈(2 : ℝ)⌉ = 2 := by rw [Int.ceil_eq_iff]; norm_num
  dsimp only [percentile]
  rw [hs, hp, hf, hc]
  norm_num [List.getD, show Int.toNat 2 = 2 from rfl, Int.toNat_ofNat,
    List.getElem_cons_succ, List.getElem_cons_zero]

theorem percentile_4pt_50 : percentile [(2:ℝ),3,4,5] 50 = some (7/2) := by
  have hs : sortAscR [(2:ℝ),3,4,5] = [2,3,4,5] := sortAscR_eq_self (by norm_num)
  have hp : ((List.length [(2:ℝ),3,4,5] : ℝ) - 1) * ((50:ℝ)/100) = 3/2 := by
    norm_num
  have hf : ⌊(3/2 : ℝ)⌋ = 1 := by rw [Int.floor_eq_iff]; norm_num
  have hc : ⌈(3/2 : ℝ)⌉ = 2 := by rw [Int.ceil_eq_iff]; norm_num
  dsimp only [percentile]
  rw [hs, hp, hf, hc]
  norm_num [List.getD, show Int.toNat 2 = 2 from rfl, Int.toNat_ofNat,
    List.getElem_cons_succ, List.getElem_cons_zero]

theorem min?_sortAscR (l : List ℝ) : (sortAscR l).min? = l.min? := by
  have p : List.Perm (sortAscR l) l := List.perm_insertionSort _ l
  cases hm : l.min? with
  | none =>
    rw [List.min?_eq_none_iff] at hm
    rw [List.min?_eq_none_iff]
    rw [← List.length_eq_zero] at hm ⊢
    rw [p.length_eq, hm]
  | some m =>
    rw [List.min?_eq_some_iff le_refl min_choice (fun a b c => le_min_iff)] at hm
    rw [List.min?_eq_some_iff le_refl min_choice (fun a b c => le_min_iff)]
    exact ⟨p.mem_iff.mpr hm.1, fun b hb => hm.2 b (p.mem_iff.mp hb)⟩

theorem sum_eq_zero_iff_of_nonneg (l : List ℝ) (h : ∀ x ∈ l, 0 ≤ x) :
    l.sum = 0 ↔ ∀ x ∈ l, x = 0 := by
  induction l with
  | nil => simp
  | cons a t ih =>
    rw [List.sum_cons]
    have ha : 0 ≤ a := h a (by simp)
    have ht : ∀ x ∈ t, 0 ≤ x := fun x hx => h x (by simp [hx])
    have hts : 0 ≤ t.sum := List.sum_nonneg ht
    constructor
    · intro hz
      have ha0 : a = 0 := by linarith
      have hts0 : t.sum = 0 := by linarith
      intro x hx
      rcases List.mem_cons.mp hx with h1 | h2
      · rw [h1, ha0]
      · exact (ih ht).mp hts0 x h2
    · intro hz
      rw [hz a (by simp), (ih ht).mpr (fun x hx => hz x (by simp [hx]))]
      ring

/-- The result of `estimate_powerlaw`, expressed over the original (unsorted)
column: the sort changes neither the minimum nor the log-sum. -/
theorem estimate_powerlaw_char (col : List ℝ) (m : ℝ)
    (hmin : col.min? = some m) :
    estimate_powerlaw col =
      if (col.map fun x => Real.log (x / m)).sum = 0 then none
      else some (1 + (col.length : ℝ) / (col.map fun x => Real.log (x / m)).sum) := by
  have p : List.Perm (sortAscR col) col := List.perm_insertionSort _ col
  have hmin' : (sortAscR col).min? = some m := by rw [min?_sortAscR, hmin]
  have hsum : ((sortAscR col).map fun x => Real.log (x / m)).sum
      = (col.map fun x => Real.log (x / m)).sum := (p.map _).sum_eq
  have hlen : (sortAscR col).length = col.length := p.length_eq
  dsimp only [estimate_powerlaw]
  rw [hmin']
  dsimp only
  rw [hsum, hlen]

theorem powerlaw_23 : estimate_powerlaw [(2:ℝ), 3] = some (1 + 2 / Real.log (3/2)) := by
  have hmin : ([(2:ℝ), 3]).min? = some 2 := by
    simp [List.min?, min_eq_left (by norm_num : (2:ℝ) ≤ 3)]
  rw [estimate_powerlaw_char [(2:ℝ), 3] 2 hmin]
  have hlog : ((([(2:ℝ),3]).map fun x => Real.log (x / 2)).sum) = Real.log (3/2) := by
    norm_num [Real.log_one]
  rw [hlog, if_neg (ne_of_gt (Real.log_pos (by norm_num)))]
  norm_num

theorem powerlaw_2 : estimate_powerlaw [(2:ℝ)] = none := by
  have hmin : ([(2:ℝ)]).min? = some 2 := by simp [List.min?]
  rw [estimate_powerlaw_char [(2:ℝ)] 2 hmin]
  have hlog : ((([(2:ℝ)]).map fun x => Real.log (x / 2)).sum) = 0 := by
    norm_num [Real.log_one]
  rw [hlog, if_pos rfl]

theorem gp_dim_eval : gp_dim [[0]] (some [[(1:ℝ)],[2],[3],[4],[5]]) =
    some (1 + 2 / Real.log (3/2)) := by
  have h1 : (cdistFlat [[0]] [[(1:ℝ)],[2],[3],[4],[5]]).filter
      (fun x => decide (0 < x)) = [(1:ℝ),2,3,4,5] := by
    rw [cdist_eval]; norm_num [List.filter]
  have h2 : List.filter (fun x => decide ((6/5:ℝ) < x)) [(1:ℝ),2,3,4,5]
      = [(2:ℝ),3,4,5] := by norm_num [List.filter]
  have h3 : List.filter (fun x => decide (x < (7/2:ℝ))) [(2:ℝ),3,4,5]
      = [(2:ℝ),3] := by norm_num [List.filter]
  dsimp only [gp_dim, Option.getD]
  rw [h1, percentile_5pt_5]
  dsimp only
  rw [h2, percentile_4pt_50]
  dsimp only
  rw [h3, powerlaw_23]

theorem distanceSample_eval : distanceSample [[0]] [[(1:ℝ)],[2],[3],[4],[5]]
    = some [(2:ℝ), 3] := by
  have h1 : (cdistFlat [[0]] [[(1:ℝ)],[2],[3],[4],[5]]).filter
      (fun x => decide (0 < x)) = [(1:ℝ),2,3,4,5] := by
    rw [cdist_eval]; norm_num [List.filter]
  have h2 : List.filter (fun x => decide ((6/5:ℝ) < x)) [(1:ℝ),2,3,4,5]
      = [(2:ℝ),3,4,5] := by norm_num [List.filter]
  have h3 : List.filter (fun x => decide (x < (7/2:ℝ))) [(2:ℝ),3,4,5]
      = [(2:ℝ),3] := by norm_num [List.filter]
  dsimp only [distanceSample]
  rw [h1, percentile_5pt_5]
  dsimp only
  rw [h2, percentile_4pt_50]
  dsimp only
  rw [h3]

theorem claimDistanceSample_eval : claimDistanceSample [[0]] [[(1:ℝ)],[2],[3],[4],[5]]
    = some [(2:ℝ)] := by
  have h1 : (cdistFlat [[0]] [[(1:ℝ)],[2],[3],[4],[5]]).filter
      (fun x => decide (0 < x)) = [(1:ℝ),2,3,4,5] := by
    rw [cdist_eval]; norm_num [List.filter]
  have h2 : List.filter (fun x => decide ((6/5:ℝ) < x ∧ x < 3)) [(1:ℝ),2,3,4,5]
      = [(2:ℝ)] := by norm_num [List.filter]
  dsimp only [claimDistanceSample]
  rw [h1, percentile_5pt_5, percentile_5pt_50]
  dsimp only
  rw [h2]


theorem sortDescR_sorted (l : List ℝ) : (sortDescR l).Sorted (fun a b => b ≤ a) := by
  show ((List.insertionSort (· ≤ ·) l).reverse).Pairwise _
  exact List.pairwise_reverse.mpr (List.sorted_insertionSort _ l)

theorem sortDescR_length (l : List ℝ) : (sortDescR l).length = l.length := by
  show ((List.insertionSort (· ≤ ·) l).reverse).length = _
  rw [List.length_reverse, List.length_insertionSort]

open Classical in
/-- The loop of `find_lyapunov_exponents`, run from index `i ≥ 1` on the
remaining suffix of the zipped trajectory with the frame invariant
`st.u = lyapFrame (i - 1)`: it appends exactly the contributions
`lyapContrib i, ..., lyapContrib (i + len - 1)` and its final `traj_length`
is the last triggering index (falling back to the incoming value). -/
theorem lyapLoop_spec {d : ℕ} (M : LyapModel d) (O : LyapOracles d)
    (dt tol : ℝ) (min_tpts : ℕ) (tpts : List ℝ) (traj : List (Fin d → ℝ)) :
    ∀ (rest : List (ℝ × (Fin d → ℝ))) (i : ℕ) (st : LyapState d),
      1 ≤ i → rest = (tpts.zip traj).drop i →
      st.u = lyapFrame M O dt tpts traj (i - 1) →
      lyapLoop M O dt tol min_tpts i rest st =
        { u := lyapFrame M O dt tpts traj (i - 1 + rest.length)
          all_lyap := st.all_lyap ++
            (List.range' i rest.length).map (lyapContrib M O dt tpts traj)
          traj_length := (((List.range' i rest.length).filter fun k =>
              decide (minAbsV (lyapContrib M O dt tpts traj k) < tol ∧ min_tpts < k)).getLast?).getD
            st.traj_length } := by
  intro rest
  induction rest with
  | nil =>
    intro i st hi hdrop hu
    cases st with
    | mk u al tl =>
      simp only [lyapLoop, List.length_nil, Nat.add_zero, List.range'_zero, List.map_nil,
        List.append_nil, List.filter_nil, List.getLast?_nil, Option.getD_none]
      simp at hu
      rw [hu]
  | cons p rest ih =>
    intro i st hi hdrop hu
    have hiN : i < (tpts.zip traj).length := by
      by_contra hge
      rw [List.drop_eq_nil_of_le (by omega)] at hdrop
      cases hdrop
    have hdrop2 : (tpts.zip traj).drop i = (tpts.zip traj)[i] :: (tpts.zip traj).drop (i + 1) :=
      List.drop_eq_getElem_cons hiN
    rw [hdrop2] at hdrop
    have hp : p = (tpts.zip traj)[i] := by
      injection hdrop
    have hrest : rest = (tpts.zip traj).drop (i + 1) := by
      injection hdrop with h1 h2
    have hit : i < tpts.length := by
      rw [List.length_zip] at hiN; omega
    have hix : i < traj.length := by
      rw [List.length_zip] at hiN; omega
    have hpz : p = (tpts[i], traj[i]) := by
      rw [hp, List.getElem_zip]
    have hstep : lyapStep M O dt tol min_tpts i p.1 p.2 st =
        { u := lyapFrame M O dt tpts traj i
          all_lyap := st.all_lyap ++ [lyapContrib M O dt tpts traj i]
          traj_length := if minAbsV (lyapContrib M O dt tpts traj i) < tol ∧ min_tpts < i
              then i else st.traj_length } := by
      have ht : p.1 = tpts.getD i 0 := by
        rw [hpz]
        rw [List.getD_eq_getElem?_getD, List.getElem?_eq_getElem hit, Option.getD_some]
      have hX : p.2 = traj.getD i (fun _ => 0) := by
        rw [hpz]
        rw [List.getD_eq_getElem?_getD, List.getElem?_eq_getElem hix, Option.getD_some]
      obtain ⟨i', rfl⟩ : ∃ i', i = i' + 1 := ⟨i - 1, by omega⟩
      dsimp only [lyapStep]
      rw [if_neg (by omega)]
      rw [ht, hX, hu]
      have hfr : lyapFrame M O dt tpts traj (i' + 1) =
          (O.qr ((1 - dt • lyapJacAt M O (tpts.getD (i' + 1) 0)
            (traj.getD (i' + 1) fun _ => 0))⁻¹ * lyapFrame M O dt tpts traj i')).1 := rfl
      have hco : lyapContrib M O dt tpts traj (i' + 1) = fun j => Real.log
          |(O.qr ((1 - dt • lyapJacAt M O (tpts.getD (i' + 1) 0)
            (traj.getD (i' + 1) fun _ => 0))⁻¹ * lyapFrame M O dt tpts traj i')).2 j j| := rfl
      simp only [Nat.add_sub_cancel]
      rw [← hfr, ← hco]
    rw [lyapLoop, hstep]
    rw [ih (i + 1) _ (by omega) hrest (by simp)]
    have hu2 : i + 1 - 1 + rest.length = i - 1 + (p :: rest).length := by
      simp only [List.length_cons]; omega
    have hal : (st.all_lyap ++ [lyapContrib M O dt tpts traj i]) ++
        (List.range' (i + 1) rest.length).map (lyapContrib M O dt tpts traj) =
        st.all_lyap ++ (List.range' i (p :: rest).length).map (lyapContrib M O dt tpts traj) := by
      simp only [List.length_cons, List.range'_succ, List.map_cons]
      rw [List.append_assoc, List.singleton_append]
    have htl : (((List.range' (i + 1) rest.length).filter fun k =>
          decide (minAbsV (lyapContrib M O dt tpts traj k) < tol ∧ min_tpts < k)).getLast?).getD
          (if minAbsV (lyapContrib M O dt tpts traj i) < tol ∧ min_tpts < i then i
           else st.traj_length) =
        (((List.range' i (p :: rest).length).filter fun k =>
          decide (minAbsV (lyapContrib M O dt tpts traj k) < tol ∧ min_tpts < k)).getLast?).getD
          st.traj_length := by
      simp only [List.length_cons, List.range'_succ, List.filter_cons, decide_eq_true_eq]
      by_cases htr : minAbsV (lyapContrib M O dt tpts traj i) < tol ∧ min_tpts < i
      · rw [if_pos htr, if_pos htr]
        cases hfR : (List.range' (i + 1) rest.length).filter (fun k =>
            decide (minAbsV (lyapContrib M O dt tpts traj k) < tol ∧ min_tpts < k)) with
        | nil => simp [hfR]
        | cons y ys =>
          rw [List.getLast?_cons_cons]
          cases hgl : (y :: ys).getLast? with
          | none => exact absurd (List.getLast?_eq_none_iff.mp hgl) (by simp)
          | some z => simp
      · rw [if_neg htr, if_neg htr]
    rw [hu2, hal, htl]

/-! ### Claim theorems -/

/-- C4: `kaplan_yorke_dimension` sorts the spectrum in descending order,
forms the cumulative sums, picks the largest index `j` whose cumulative sum
is nonnegative and — whenever that index is at most `d - 2`, so no clamping
occurs — returns exactly `1 + j + cumsum[j] / |spectrum[j+1]|`, without
warning. -/
theorem C4_kaplan_yorke_formula (s : List ℚ) (j : ℕ)
    (hj : j < s.length)
    (hge : 0 ≤ (cumsumQ (sortDescQ s)).getD j 0)
    (hmax : ∀ k, j < k → k < s.length → (cumsumQ (sortDescQ s)).getD k 0 < 0)
    (hcl : (j : ℤ) ≤ (s.length : ℤ) - 2) :
    kaplan_yorke_dimension s =
      some (1 + (j : ℚ) +
        (cumsumQ (sortDescQ s)).getD j 0 / |(sortDescQ s).getD (j + 1) 0|, false) := by
  have ht : (sortDescQ s).length = s.length := sortDescQ_length s
  have hc : (cumsumQ (sortDescQ s)).length = s.length := by
    rw [cumsumQ_length, ht]
  have hm : ((List.range (sortDescQ s).length).filter fun i =>
      decide ((0 : ℚ) ≤ (cumsumQ (sortDescQ s)).getD i 0)).max? = some j := by
    rw [ht]; exact ky_where_max _ _ j hj hge (fun k h1 h2 => hmax k h1 h2)
  dsimp only [kaplan_yorke_dimension]
  rw [hm]
  dsimp only
  have hwarn : ¬ ((((sortDescQ s).length : ℤ) - 2) < (j : ℤ)) := by
    rw [ht]; omega
  rw [if_neg hwarn]
  have h1 : pyGet (cumsumQ (sortDescQ s)) (j : ℤ) =
      some ((cumsumQ (sortDescQ s)).getD j 0) := pyGet_natCast _ j (by omega)
  have h2 : pyGet (sortDescQ s) ((j : ℤ) + 1) =
      some ((sortDescQ s).getD (j + 1) 0) := by
    have e : ((j : ℤ) + 1) = ((j + 1 : ℕ) : ℤ) := by push_cast; ring
    rw [e]
    exact pyGet_natCast _ (j + 1) (by omega)
  rw [h1, h2]
  simp only [decide_eq_false hwarn]
  norm_num

/-- C4 witness: on the spectrum `[1, -2]` (so `j = 0`, cumulative sums
`[1, -1]`) the Kaplan-Yorke dimension is exactly `1 + 0 + 1/2 = 3/2`, with no
warning. -/
theorem C4_witness : kaplan_yorke_dimension [(1 : ℚ), -2] = some (3 / 2, false) := by
  have h := C4_kaplan_yorke_formula [(1 : ℚ), -2] 0 (by norm_num)
    (by norm_num [cumsumQ, sortDescQ, sortAscQ, List.insertionSort, List.orderedInsert])
    (by
      intro k hk hk2
      simp only [List.length_cons, List.length_nil] at hk2
      have hk1 : k = 1 := by omega
      subst hk1
      norm_num [cumsumQ, sortDescQ, sortAscQ, List.insertionSort, List.orderedInsert,
        List.range_succ])
    (by norm_num)
  rw [h]
  norm_num [cumsumQ, sortDescQ, sortAscQ, List.insertionSort, List.orderedInsert,
    List.range_succ]

/-- C5 counterexample: on the spectrum `[-1, -2]` every cumulative sum is
negative, `np.where` yields an empty index list and `np.max` raises a
`ValueError` — the function aborts (`none`) instead of warning and returning
a clamped best-effort value. -/
theorem C5_counterexample : kaplan_yorke_dimension [(-1 : ℚ), -2] = none := by
  norm_num [kaplan_yorke_dimension, sortDescQ, sortAscQ, cumsumQ, pyGet,
    List.insertionSort, List.orderedInsert, List.max?, List.range_succ, List.filter]

/-- C5 (amended): only when the cumulative sums stay nonnegative through the
last entry (equivalently, the total sum is nonnegative) does
`kaplan_yorke_dimension` emit the warning, clamp the crossing index to
`d - 2`, and return the finite best-effort value
`1 + (d-2) + cumsum[d-2] / |spectrum[d-1]|`; when every cumulative sum is
negative it instead aborts with an error. -/
theorem C5_kaplan_yorke_clamp (s : List ℚ) (hd : 2 ≤ s.length) (hsum : 0 ≤ s.sum) :
    kaplan_yorke_dimension s =
      some (1 + ((s.length : ℚ) - 2) +
        (cumsumQ (sortDescQ s)).getD (s.length - 2) 0 /
          |(sortDescQ s).getD (s.length - 1) 0|, true) := by
  have ht : (sortDescQ s).length = s.length := sortDescQ_length s
  have hlast : (cumsumQ (sortDescQ s)).getD (s.length - 1) 0 = s.sum := by
    rw [cumsumQ_getD _ _ (by omega)]
    have e : s.length - 1 + 1 = (sortDescQ s).length := by omega
    rw [e, List.take_length, sortDescQ_sum]
  have hm : ((List.range (sortDescQ s).length).filter fun i =>
      decide ((0 : ℚ) ≤ (cumsumQ (sortDescQ s)).getD i 0)).max? = some (s.length - 1) := by
    rw [ht]
    rw [List.max?_eq_some_iff Nat.le_refl max_choice (fun a b c => max_le_iff)]
    constructor
    · rw [List.mem_filter, List.mem_range]
      exact ⟨by omega, decide_eq_true (by rw [hlast]; exact hsum)⟩
    · intro b hb
      rw [List.mem_filter, List.mem_range] at hb
      omega
  dsimp only [kaplan_yorke_dimension]
  rw [hm]
  dsimp only
  have hwarn : (((sortDescQ s).length : ℤ) - 2) < ((s.length - 1 : ℕ) : ℤ) := by
    rw [ht]; omega
  rw [if_pos hwarn]
  have e1 : ((sortDescQ s).length : ℤ) - 2 = ((s.length - 2 : ℕ) : ℤ) := by rw [ht]; omega
  have h1 : pyGet (cumsumQ (sortDescQ s)) (((sortDescQ s).length : ℤ) - 2) =
      some ((cumsumQ (sortDescQ s)).getD (s.length - 2) 0) := by
    rw [e1]; exact pyGet_natCast _ _ (by rw [cumsumQ_length, ht]; omega)
  have h2 : pyGet (sortDescQ s) ((((sortDescQ s).length : ℤ) - 2) + 1) =
      some ((sortDescQ s).getD (s.length - 1) 0) := by
    have e2 : (((sortDescQ s).length : ℤ) - 2) + 1 = ((s.length - 1 : ℕ) : ℤ) := by
      rw [ht]; omega
    rw [e2]; exact pyGet_natCast _ _ (by omega)
  rw [h1, h2]
  simp only [decide_eq_true hwarn]
  have e3 : ((((sortDescQ s).length : ℤ) - 2 : ℤ) : ℚ) = ((s.length : ℚ) - 2) := by
    rw [ht]; push_cast; ring
  rw [e3]

/-- C5 amended-claim witness: on `[2, 1]` the cumulative sums `[2, 3]` never
cross zero, the warning fires, the index is clamped to `d - 2 = 0`, and the
best-effort result is `1 + 0 + 2/1 = 3`. -/
theorem C5_witness : kaplan_yorke_dimension [(2 : ℚ), 1] = some (3, true) := by
  have h := C5_kaplan_yorke_clamp [(2 : ℚ), 1] (by norm_num) (by norm_num)
  rw [h]
  norm_num [cumsumQ, sortDescQ, sortAscQ, List.insertionSort, List.orderedInsert,
    List.range_succ]

/-- C6: whenever no element after index 0 has absolute value strictly larger
than the first element's, the loop of `find_max_lyapunov` never assigns
`max_exp` and the function fails with an unassigned-variable error (`none`)
instead of returning a value. -/
theorem C6_find_max_lyapunov_unassigned (m : ℚ) (rest : List ℚ)
    (h : ∀ x ∈ rest, |x| ≤ |m|) :
    find_max_lyapunov (m :: rest) = none := by
  rw [find_max_lyapunov_eq_getLast?,
    List.filter_eq_nil_iff.mpr (fun a ha => by simpa using not_lt.mpr (h a ha))]
  rfl

/-- C6 witness: the spectrum `[3, 2, 1]`, already in descending-magnitude
order, satisfies the hypothesis and makes `find_max_lyapunov` fail. -/
theorem C6_witness : (∀ x ∈ [(2 : ℚ), 1], |x| ≤ |(3 : ℚ)|) ∧
    find_max_lyapunov [(3 : ℚ), 2, 1] = none :=
  ⟨by norm_num, C6_find_max_lyapunov_unassigned 3 [2, 1] (by norm_num)⟩

/-- C7 counterexample: on `[1, 5, 3]` the function returns `3`, yet the
element of largest absolute magnitude after index 0 is `5` (it belongs to the
tail and dominates every tail element in absolute value), and `3 ≠ 5` — so the
returned value is not the max-magnitude exponent the claim describes. -/
theorem C7_counterexample : find_max_lyapunov [(1 : ℚ), 5, 3] = some 3 ∧
    (5 : ℚ) ∈ [(5 : ℚ), 3] ∧ (∀ x ∈ [(5 : ℚ), 3], |x| ≤ |(5 : ℚ)|) ∧ (3 : ℚ) ≠ 5 :=
  ⟨rfl, by norm_num, by norm_num, by norm_num⟩

/-- C7 (amended): because the comparison reference `max_magnitude_number`
is never updated, `find_max_lyapunov` returns the LAST element after index 0
whose absolute value strictly exceeds the first element's absolute value
(and fails, `none`, when there is no such element). -/
theorem C7_find_max_lyapunov_last_exceeder (m : ℚ) (rest : List ℚ) :
    find_max_lyapunov (m :: rest)
      = (rest.filter fun e => decide (|m| < |e|)).getLast? :=
  find_max_lyapunov_eq_getLast? m rest

/-- C8: on every one-dimensional trajectory (with the entropy backend
available) `mse_mv` does bypass standardization, but the source calls
`neurokit2.entropy_multiscale(dimension=2, **mmse_opts)` without the
trajectory argument, so the call raises a `TypeError` instead of returning
the entropy of the trajectory — for every entropy oracle, i.e. no entropy
value is computed from the data at all. -/
theorem C8_mse_mv_one_dim_raises (entropy_multiscale : List ℝ → ℝ)
    (standardize_ts : List (List ℝ) → List (List ℝ)) (sig : List ℝ) :
    mse_mv true entropy_multiscale standardize_ts (Sum.inl sig)
      = .error .typeError := rfl

/-- C9: when the neurokit2 backend is unavailable (`has_neurokit = false`,
the module-level flag fixed at import time), `mse_mv` fails immediately with
the configuration error for every trajectory and every oracle — before any
entropy computation, as the result does not depend on the entropy function,
the standardizer, or the trajectory. -/
theorem C9_mse_mv_config_error (entropy_multiscale : List ℝ → ℝ)
    (standardize_ts : List (List ℝ) → List (List ℝ))
    (traj : List ℝ ⊕ List (List ℝ)) :
    mse_mv false entropy_multiscale standardize_ts traj
      = .error .configError := rfl

/-- C10: `pca` returns the 1-indexed position at which the cumulative
explained-variance-ratio sequence first reaches the threshold (part 1); and
for a trajectory lying exactly on a 1-D line, whose PCA explained-variance
ratios start with 1, it returns 1 for every threshold in (0,1) (part 2). -/
theorem C10_pca_first_reach_and_line :
    (∀ (evr : List ℚ) (threshold : ℚ) (k : ℕ),
        k < evr.length → threshold ≤ (cumsumQ evr).getD k 0 →
        (∀ m, m < k → (cumsumQ evr).getD m 0 < threshold) →
        pca evr threshold = k + 1)
    ∧ (∀ (evr : List ℚ) (threshold : ℚ),
        0 < threshold → threshold < 1 → evr.head? = some 1 →
        pca evr threshold = 1) := by
  refine ⟨pca_first_reach, ?_⟩
  intro evr thr h0 h1 hh
  have hlen : 0 < evr.length := by cases evr <;> simp_all
  have hc0 : (cumsumQ evr).getD 0 0 = 1 := by
    rw [cumsumQ_getD _ 0 hlen]
    cases evr with
    | nil => simp at hlen
    | cons a r =>
      simp only [List.head?_cons, Option.some.injEq] at hh
      simp [hh]
  have h := pca_first_reach evr thr 0 hlen (by rw [hc0]; exact le_of_lt h1)
    (by intro m hm; exact absurd hm (Nat.not_lt_zero m))
  simpa using h

/-- C10 witness: with explained-variance ratios `[1/2, 1/2]` and threshold
`3/4` the count is 2; with ratios `[1, 0]` (a 1-D line) and threshold `9/10`
the count is 1. -/
theorem C10_witness : pca [(1 : ℚ)/2, 1/2] (3/4) = 2 ∧ pca [(1 : ℚ), 0] (9/10) = 1 := by
  constructor
  · exact C10_pca_first_reach_and_line.1 [(1 : ℚ)/2, 1/2] (3/4) 1 (by norm_num)
      (by norm_num [cumsumQ, List.range_succ])
      (by
        intro m hm
        have hm0 : m = 0 := by omega
        subst hm0
        norm_num [cumsumQ, List.range_succ])
  · exact C10_pca_first_reach_and_line.2 [(1 : ℚ), 0] (9/10) (by norm_num) (by norm_num)
      (by norm_num)


/-- C2 counterexample: with the single point `[0]` against the second
trajectory `[[1],[2],[3],[4],[5]]` the positive distances are `[1,2,3,4,5]`.
The code filters by their 5th percentile (6/5), then by the 50th percentile
of the REMAINING band `[2,3,4,5]` (namely 7/2), feeding `[2, 3]` to the fit
(a finite estimate).  The claim instead takes the 50th percentile of the
positive distances (namely 3), feeding `[2]`, whose log-sum is zero — a
non-finite result.  The two disagree. -/
theorem C2_counterexample :
    gp_dim [[0]] (some [[(1:ℝ)],[2],[3],[4],[5]]) ≠
      (claimDistanceSample [[0]] [[(1:ℝ)],[2],[3],[4],[5]]).bind estimate_powerlaw := by
  rw [gp_dim_eval, claimDistanceSample_eval]
  simp [powerlaw_2]

/-- C2 (amended): `gp_dim` equals `estimate_powerlaw` applied to the sample
obtained by discarding non-positive distances, keeping the values above the
5th percentile of the positives, and of that already-filtered band keeping
the values strictly below the band's OWN 50th percentile; a missing second
trajectory defaults to the first, and every value fed to the fit is
strictly positive. -/
theorem C2_gp_dim_refines (data y_data : List (List ℝ)) :
    gp_dim data (some y_data) = (distanceSample data y_data).bind estimate_powerlaw
    ∧ gp_dim data none = gp_dim data (some data)
    ∧ (∀ s, distanceSample data y_data = some s → ∀ x ∈ s, 0 < x) := by
  refine ⟨?_, rfl, ?_⟩
  · dsimp only [gp_dim, distanceSample, Option.getD]
    cases percentile ((cdistFlat data y_data).filter fun x => decide (0 < x)) 5 with
    | none => rfl
    | some p5 =>
      dsimp only
      cases percentile (((cdistFlat data y_data).filter fun x => decide (0 < x)).filter
          fun x => decide (p5 < x)) 50 with
      | none => rfl
      | some p50 => rfl
  · intro s hs x hx
    dsimp only [distanceSample] at hs
    cases hp5 : percentile ((cdistFlat data y_data).filter fun x => decide (0 < x)) 5 with
    | none => rw [hp5] at hs; cases hs
    | some p5 =>
      rw [hp5] at hs
      dsimp only at hs
      cases hp50 : percentile (((cdistFlat data y_data).filter fun x => decide (0 < x)).filter
          fun x => decide (p5 < x)) 50 with
      | none => rw [hp50] at hs; cases hs
      | some p50 =>
        rw [hp50] at hs
        dsimp only at hs
        cases hs
        have hx1 := (List.mem_filter.mp hx).1
        have hx2 := (List.mem_filter.mp hx1).1
        have hpos := (List.mem_filter.mp hx2).2
        simpa using hpos

/-- C2 amended-claim witness: at the concrete input of the counterexample the
fed sample is `[2, 3]`, the refinement equation holds, and the sample is
strictly positive. -/
theorem C2_witness :
    (gp_dim [[0]] (some [[(1:ℝ)],[2],[3],[4],[5]]) =
      (distanceSample [[0]] [[(1:ℝ)],[2],[3],[4],[5]]).bind estimate_powerlaw)
    ∧ (∀ x ∈ [(2:ℝ), 3], 0 < x) :=
  ⟨(C2_gp_dim_refines [[0]] [[(1:ℝ)],[2],[3],[4],[5]]).1,
   fun x hx => (C2_gp_dim_refines [[0]] [[(1:ℝ)],[2],[3],[4],[5]]).2.2 [(2:ℝ), 3]
     distanceSample_eval x hx⟩

/-- C3: for a nonempty column of positive reals, `estimate_powerlaw` takes
the column minimum as `xmin` and returns exactly
`1 + n / sum(log(x_i / xmin))` (first conjunct, whenever not all values equal
the minimum); when all values equal `xmin` the log-sum is zero and the result
is non-finite (`none`) rather than a number (second conjunct).  The function
is a pure Lean function of its argument, hence deterministic and
side-effect free. -/
theorem C3_estimate_powerlaw (col : List ℝ) (hne : col ≠ [])
    (hpos : ∀ x ∈ col, 0 < x) :
    ((¬ ∀ x ∈ col, x = col.min?.getD 0) →
      estimate_powerlaw col =
        some (1 + (col.length : ℝ) /
          (col.map fun x => Real.log (x / col.min?.getD 0)).sum))
    ∧ ((∀ x ∈ col, x = col.min?.getD 0) → estimate_powerlaw col = none) := by
  obtain ⟨m, hm⟩ : ∃ m, col.min? = some m := by
    cases hmc : col.min? with
    | none => exact absurd (List.min?_eq_none_iff.mp hmc) hne
    | some m => exact ⟨m, rfl⟩
  have hmd : col.min?.getD 0 = m := by rw [hm]; rfl
  have hchar := estimate_powerlaw_char col m hm
  have hmem : m ∈ col ∧ ∀ b ∈ col, m ≤ b :=
    (List.min?_eq_some_iff le_refl min_choice (fun a b c => le_min_iff)).mp hm
  have hmpos : 0 < m := hpos m hmem.1
  have hterm : ∀ x ∈ col, 0 ≤ Real.log (x / m) := by
    intro x hx
    exact Real.log_nonneg ((one_le_div hmpos).mpr (hmem.2 x hx))
  have hzero : (col.map fun x => Real.log (x / m)).sum = 0 ↔ ∀ x ∈ col, x = m := by
    rw [sum_eq_zero_iff_of_nonneg _ (by simpa using hterm)]
    constructor
    · intro hz x hx
      have hlx := hz (Real.log (x / m)) (List.mem_map.mpr ⟨x, hx, rfl⟩)
      have hdx : 0 < x / m := div_pos (hpos x hx) hmpos
      rcases Real.log_eq_zero.mp hlx with h0 | h1 | hneg
      · exact absurd h0 (ne_of_gt hdx)
      · field_simp at h1
        exact h1
      · exact absurd hneg (by linarith)
    · intro hall y hy
      obtain ⟨x, hx, rfl⟩ := List.mem_map.mp hy
      rw [hall x hx, div_self (ne_of_gt hmpos), Real.log_one]
  rw [hmd]
  constructor
  · intro hnall
    rw [hchar, if_neg (fun hc => hnall (hzero.mp hc))]
  · intro hall
    rw [hchar, if_pos (hzero.mpr hall)]

/-- C3 witness: on the column `[1, e]` the minimum is 1, the log-sum is
`log 1 + log e = 1`, and the estimate is exactly `1 + 2/1 = 3`. -/
theorem C3_witness : estimate_powerlaw [1, Real.exp 1] = some 3 := by
  have he : (1 : ℝ) < Real.exp 1 := by
    have := Real.add_one_le_exp 1
    linarith
  have hmin : ([1, Real.exp 1] : List ℝ).min? = some 1 := by
    simp [List.min?, min_eq_left (le_of_lt he)]
  have h := (C3_estimate_powerlaw [1, Real.exp 1] (by simp)
    (by
      intro x hx
      rcases List.mem_cons.mp hx with h1 | h2
      · rw [h1]; norm_num
      · simp at h2
        rw [h2]
        exact Real.exp_pos 1)).1
    (by
      rw [hmin]
      intro hall
      have := hall (Real.exp 1) (by simp)
      simp at this)
  rw [hmin] at h
  rw [h]
  norm_num [Real.log_exp]


/-- C1: for every model of dimension `d` and admissible (length at least 2)
zipped trajectory, `find_lyapunov_exponents` returns a list of exactly `d`
reals, sorted in descending order, equal to the descending sort of the
column-wise sums of the recorded per-step log absolute values of the QR
upper-triangular diagonal (characterized independently by `lyapContrib` over
the frame recursion `lyapFrame`), divided by `dt` times the final effective
trajectory length (`lyapEffLen`: the last early-stop index, or the
`traj_length` argument when early stop never fires). -/
theorem C1_find_lyapunov_exponents_spec {d : ℕ} (M : LyapModel d) (O : LyapOracles d)
    (traj_length : ℕ) (tpts : List ℝ) (traj : List (Fin d → ℝ)) (tol : ℝ) (min_tpts : ℕ)
    (_hd : 1 ≤ d) (hN : 2 ≤ (tpts.zip traj).length) :
    (find_lyapunov_exponents M O traj_length tpts traj tol min_tpts).length = d
    ∧ (find_lyapunov_exponents M O traj_length tpts traj tol min_tpts).Sorted
        (fun a b => b ≤ a)
    ∧ find_lyapunov_exponents M O traj_length tpts traj tol min_tpts =
        sortDescR (List.ofFn fun j =>
          ((List.range' 1 ((tpts.zip traj).length - 1)).map
              fun i => lyapContrib M O (medianR (np_diff tpts)) tpts traj i j).sum /
          (medianR (np_diff tpts) *
            (lyapEffLen M O (medianR (np_diff tpts)) tol min_tpts tpts traj
              (tpts.zip traj).length traj_length : ℝ))) := by
  have key : find_lyapunov_exponents M O traj_length tpts traj tol min_tpts =
      sortDescR (List.ofFn fun j =>
        ((List.range' 1 ((tpts.zip traj).length - 1)).map
            fun i => lyapContrib M O (medianR (np_diff tpts)) tpts traj i j).sum /
        (medianR (np_diff tpts) *
          (lyapEffLen M O (medianR (np_diff tpts)) tol min_tpts tpts traj
            (tpts.zip traj).length traj_length : ℝ))) := by
    cases hz : tpts.zip traj with
    | nil => rw [hz] at hN; simp at hN
    | cons p rest =>
      have hrest : rest = (tpts.zip traj).drop 1 := by rw [hz]; rfl
      dsimp only [find_lyapunov_exponents]
      rw [hz]
      show sortDescR (List.ofFn fun j =>
          (((lyapLoop M O (medianR (np_diff tpts)) tol min_tpts 0 (p :: rest)
            ⟨1, [], traj_length⟩).all_lyap.map fun v => v j).sum) / _) = _
      rw [lyapLoop]
      have hstep0 : lyapStep M O (medianR (np_diff tpts)) tol min_tpts 0 p.1 p.2
          ⟨1, [], traj_length⟩ = ⟨1, [], traj_length⟩ := by
        dsimp only [lyapStep]
        rw [if_pos (by omega)]
      rw [hstep0]
      rw [lyapLoop_spec M O (medianR (np_diff tpts)) tol min_tpts tpts traj rest 1
        ⟨1, [], traj_length⟩ (by omega) hrest rfl]
      dsimp only [lyapEffLen]
      simp only [List.length_cons, Nat.add_sub_cancel]
      congr 1
      congr 1
      funext j
      rw [List.nil_append, List.map_map]
      rfl
  refine ⟨?_, ?_, key⟩
  · rw [key, sortDescR_length, List.length_ofFn]
  · rw [key]
    exact sortDescR_sorted _

/-- C1 witness: on the concrete 1-dimensional model with trajectory times
`[0, 1]` and states `[0, 1]`, the returned spectrum has length 1 and is
(trivially) sorted in descending order. -/
theorem C1_witness :
    (find_lyapunov_exponents lyapModel0 lyapOracles0 2 [0, 1]
      [fun _ => 0, fun _ => 1] (1/100000000) 10).length = 1
    ∧ (find_lyapunov_exponents lyapModel0 lyapOracles0 2 [0, 1]
      [fun _ => 0, fun _ => 1] (1/100000000) 10).Sorted (fun a b => b ≤ a) :=
  ⟨(C1_find_lyapunov_exponents_spec lyapModel0 lyapOracles0 2 [0, 1]
      [fun _ => 0, fun _ => 1] (1/100000000) 10
      (by norm_num) (by simp [List.length_zip])).1,
   (C1_find_lyapunov_exponents_spec lyapModel0 lyapOracles0 2 [0, 1]
      [fun _ => 0, fun _ => 1] (1/100000000) 10
      (by norm_num) (by simp [List.length_zip])).2.1⟩
